import Mathlib

/-!
Verification of the commit-to-package attribution and classification pipeline
of scripts/auto-changeset.mjs.

The script is embedded shallowly: every pure computation of the pipeline is
translated to a Lean function over the character-list contents of strings, and
every external git or file-system effect is modelled as an explicit oracle
(GitEnv) or an explicit file-system state (FileSystem).  JavaScript string
operations (trim, toLowerCase, startsWith, includes, split, join, replace with
a string pattern, Array.pop, argument truthiness) are given exact counterparts
below; the only deliberate approximation is that Unicode-specific lowercasing
and exotic whitespace classes are restricted to their ASCII behaviour, which is
what every commit subject in the analysed rules exercises.
-/

set_option autoImplicit false

namespace AutoChangeset

/-! JavaScript string primitives, modelled over the character lists of strings. -/

/-- JS String.prototype.trim: strip leading and trailing whitespace. -/
def jsTrim (s : String) : String :=
  ⟨((s.data.dropWhile Char.isWhitespace).reverse.dropWhile Char.isWhitespace).reverse⟩

/-- JS String.prototype.toLowerCase (ASCII behaviour). -/
def jsToLower (s : String) : String :=
  ⟨s.data.map Char.toLower⟩

/-- JS String.prototype.startsWith. -/
def jsStartsWith (s p : String) : Bool :=
  p.data.isPrefixOf s.data

/-- Contiguous-substring test on character lists (JS String.prototype.includes). -/
def listInfix (p : List Char) : List Char → Bool
  | [] => p.isEmpty
  | x :: xs => p.isPrefixOf (x :: xs) || listInfix p xs

/-- JS String.prototype.includes. -/
def jsIncludes (s p : String) : Bool :=
  listInfix p.data s.data

/-- JS String.prototype.split with a one-character separator: keeps empty
fields and always returns at least one field. -/
def splitChar (c : Char) : List Char → List (List Char)
  | [] => [[]]
  | x :: xs =>
    match splitChar c xs with
    | [] => [[]]
    | h :: t => if x = c then [] :: h :: t else (x :: h) :: t

/-- JS split lifted to strings. -/
def jsSplit (s : String) (c : Char) : List String :=
  (splitChar c s.data).map String.mk

/-- JS Array.prototype.join with a one-character separator. -/
def joinWithChar (c : Char) : List String → String
  | [] => ""
  | [s] => s
  | s :: rest => s ++ ⟨[c]⟩ ++ joinWithChar c rest

/-- JS url.split(sep).pop() : the final field of the split (split is never empty). -/
def lastSegment (s : String) : String :=
  (jsSplit s '/').getLastD ""

/-- JS String.prototype.replace with a string pattern: replaces only the FIRST
occurrence of the pattern character. -/
def replaceFirstChar (c : Char) (r : List Char) : List Char → List Char
  | [] => []
  | x :: xs => if x = c then r ++ xs else x :: replaceFirstChar c r xs

/-- packageName.replace('@', '').replace('/', '-') from main (line 523). -/
def safePackageName (name : String) : String :=
  ⟨replaceFirstChar '/' ['-'] (replaceFirstChar '@' [] name.data)⟩

/-- JS falsiness of an optional string: undefined/null and the empty string. -/
def jsFalsyOpt : Option String → Bool
  | none => true
  | some s => s == ""

/-- JS a || b on optional strings. -/
def jsOr (a b : Option String) : Option String :=
  if jsFalsyOpt a then b else a

/-! The data model of the pipeline. -/

/-- A discovered package: manifest name and repo-relative root path. -/
structure Package where
  name : String
  path : String
  deriving Repr, DecidableEq

/-- A commit as carried through the pipeline: hash, subject line, and the
changed files recorded for one package (after filtering). -/
structure Commit where
  hash : String
  message : String
  files : List String
  deriving Repr, DecidableEq

/-- The semantic-version bump enumeration. -/
inductive VersionType where
  | major
  | minor
  | patch
  deriving Repr, DecidableEq

/-- Rendering of a bump into the changeset front matter. -/
def VersionType.str : VersionType → String
  | .major => "major"
  | .minor => "minor"
  | .patch => "patch"

/-- Total order on bumps: patch < minor < major. -/
def VersionType.rank : VersionType → Nat
  | .patch => 0
  | .minor => 1
  | .major => 2

/-! determineVersionType (auto-changeset.mjs lines 216-248). -/

/-- Translation of determineVersionType: BREAKING CHANGE or !: anywhere gives
major; else a trimmed lowercased subject starting with feat gives minor; else
fix gives patch; else patch. -/
def determineVersionType (commits : List Commit) : VersionType :=
  let messages := commits.map (fun c => c.message)
  if messages.any (fun msg => jsIncludes msg "BREAKING CHANGE" || jsIncludes msg "!:") then
    .major
  else if messages.any (fun msg => jsStartsWith (jsToLower (jsTrim msg)) "feat") then
    .minor
  else if messages.any (fun msg => jsStartsWith (jsToLower (jsTrim msg)) "fix") then
    .patch
  else
    .patch

/-- Reference bump rule, written from the words of the spec for claim C1:
major if any subject contains BREAKING CHANGE or !:, else minor if any
trimmed lowercased subject starts with feat, otherwise patch. -/
def referenceVersionType (messages : List String) : VersionType :=
  if messages.any (fun msg => jsIncludes msg "BREAKING CHANGE" || jsIncludes msg "!:") then
    .major
  else if messages.any (fun msg => jsStartsWith (jsToLower (jsTrim msg)) "feat") then
    .minor
  else
    .patch

/-! categorizeCommits (lines 259-293). -/

/-- The seven category buckets, in their fixed display order. -/
structure Categories where
  features : List String
  bugFixes : List String
  refactoring : List String
  performance : List String
  documentation : List String
  chores : List String
  others : List String
  deriving Repr, DecidableEq

/-- msg.replace(regex for a leading case-insensitive tag plus whitespace, '').
The tag argument is the lowercase type token including the colon. -/
def stripTypeTag (tag : String) (msg : String) : String :=
  if jsStartsWith (jsToLower msg) tag then
    ⟨(msg.data.drop tag.data.length).dropWhile Char.isWhitespace⟩
  else msg

/-- One iteration of the categorization loop of categorizeCommits. -/
def categorizeCommit (cat : Categories) (commit : Commit) : Categories :=
  let msg := jsTrim commit.message
  let lowerMsg := jsToLower msg
  let hash : String := ⟨commit.hash.data.take 7⟩
  if jsStartsWith lowerMsg "feat" then
    { cat with features := cat.features ++ [stripTypeTag "feat:" msg ++ " (" ++ hash ++ ")"] }
  else if jsStartsWith lowerMsg "fix" then
    { cat with bugFixes := cat.bugFixes ++ [stripTypeTag "fix:" msg ++ " (" ++ hash ++ ")"] }
  else if jsStartsWith lowerMsg "refactor" then
    { cat with refactoring := cat.refactoring ++ [stripTypeTag "refactor:" msg ++ " (" ++ hash ++ ")"] }
  else if jsStartsWith lowerMsg "perf" then
    { cat with performance := cat.performance ++ [stripTypeTag "perf:" msg ++ " (" ++ hash ++ ")"] }
  else if jsStartsWith lowerMsg "docs" then
    { cat with documentation := cat.documentation ++ [stripTypeTag "docs:" msg ++ " (" ++ hash ++ ")"] }
  else if jsStartsWith lowerMsg "chore" then
    { cat with chores := cat.chores ++ [stripTypeTag "chore:" msg ++ " (" ++ hash ++ ")"] }
  else
    { cat with others := cat.others ++ [msg ++ " (" ++ hash ++ ")"] }

/-- Translation of categorizeCommits. -/
def categorizeCommits (commits : List Commit) : Categories :=
  commits.foldl categorizeCommit ⟨[], [], [], [], [], [], []⟩

/-! Attribution: categorizeCommitsByPackage (lines 163-202). -/

/-- file.startsWith(pkg.path + '/'). -/
def fileInPackage (pkg : Package) (file : String) : Bool :=
  jsStartsWith file (pkg.path ++ "/")

/-- const [commitHash, ...messageParts] = commitLine.split(' ');
    const message = messageParts.join(' '). -/
def parseCommitLine (line : String) : String × String :=
  match jsSplit line ' ' with
  | [] => ("", "")
  | hash :: rest => (hash, joinWithChar ' ' rest)

/-- packageCommits[name].push(entry) on the object modelled as an association
list: appends to the first entry whose key equals the name. -/
def updatePkg (name : String) (entry : Commit) :
    List (String × List Commit) → List (String × List Commit)
  | [] => []
  | (n, cs) :: rest =>
    if n = name then (n, cs ++ [entry]) :: rest
    else (n, cs) :: updatePkg name entry rest

/-- The body of the commits.forEach loop: parse one oneline entry, query its
changed files, and record it under every package owning a matching file. -/
def processCommit (getFiles : String → List String) (packages : List Package)
    (acc : List (String × List Commit)) (line : String) : List (String × List Commit) :=
  let hash := (parseCommitLine line).1
  let message := (parseCommitLine line).2
  let changedFiles := getFiles hash
  packages.foldl (fun acc pkg =>
    if changedFiles.any (fun f => fileInPackage pkg f) then
      updatePkg pkg.name ⟨hash, message, changedFiles.filter (fun f => fileInPackage pkg f)⟩ acc
    else acc) acc

/-- Translation of categorizeCommitsByPackage: initialize every package with an
empty list, process each commit line, then delete the packages left empty. -/
def categorizeCommitsByPackage (getFiles : String → List String)
    (commits : List String) (packages : List Package) : List (String × List Commit) :=
  (commits.foldl (processCommit getFiles packages)
      (packages.map (fun pkg => (pkg.name, ([] : List Commit))))).filter
    (fun entry => !entry.2.isEmpty)

/-- The per-line contribution of one commit line to one package: at most one
recorded entry, holding exactly the files below the package root. -/
def attrEntry (getFiles : String → List String) (pkg : Package) (line : String) : Option Commit :=
  let hash := (parseCommitLine line).1
  let message := (parseCommitLine line).2
  let changedFiles := getFiles hash
  if changedFiles.any (fun f => fileInPackage pkg f) then
    some ⟨hash, message, changedFiles.filter (fun f => fileInPackage pkg f)⟩
  else none

/-! Rendering: generateKoreanSummary and generateChangeset (lines 301-386). -/

/-- One block of generateKoreanSummary: a bold title line then one indented
bullet per item, or nothing when the bucket is empty. -/
def summarySection (title : String) (items : List String) : String :=
  if items.isEmpty then ""
  else items.foldl (fun acc item => acc ++ "    -   " ++ item ++ "\n") ("-   **" ++ title ++ "**\n")

/-- Translation of generateKoreanSummary. -/
def generateKoreanSummary (cat : Categories) : String :=
  jsTrim (summarySection "새로운 기능" cat.features ++
    summarySection "버그 수정" cat.bugFixes ++
    summarySection "리팩토링" cat.refactoring ++
    summarySection "성능 개선" cat.performance ++
    summarySection "문서" cat.documentation ++
    summarySection "기타" cat.chores ++
    summarySection "기타 변경사항" cat.others)

/-- Translation of generateChangeset: front matter with the package name and
bump, the Korean summary, and an optional related-PR trailer. -/
def generateChangeset (packageName : String) (commits : List Commit)
    (prUrl : Option String) : String :=
  let versionType := determineVersionType commits
  let categories := categorizeCommits commits
  let summary := generateKoreanSummary categories
  let base := "---\n\"" ++ packageName ++ "\": " ++ versionType.str ++ "\n---\n\n" ++ summary ++ "\n"
  match prUrl with
  | some url => base ++ "\n**관련 PR**: [#" ++ lastSegment url ++ "](" ++ url ++ ")\n"
  | none => base

/-- The fixed output file name of main (line 524). -/
def changesetFilename (prNumber packageName : String) : String :=
  "auto-pr-" ++ prNumber ++ "-" ++ safePackageName packageName ++ ".md"

/-- The (file name, file content) pairs one run persists. -/
def pipelineOutputs (getFiles : String → List String) (packages : List Package)
    (commits : List String) (prNumber : String) (prUrl : Option String) :
    List (String × String) :=
  (categorizeCommitsByPackage getFiles commits packages).map
    (fun entry => (changesetFilename prNumber entry.1, generateChangeset entry.1 entry.2 prUrl))

/-! Concrete data of the scenario shared by claim C2 and several witnesses. -/

/-- Changed-file oracle of the C2 scenario. -/
def c2getFiles : String → List String := fun h =>
  if h = "abc1234" then ["packages/ui/src/Button.ts"]
  else if h = "def5678" then ["packages/core/src/x.ts"]
  else []

/-- Packages of the C2 scenario. -/
def c2packages : List Package :=
  [⟨"core", "packages/core"⟩, ⟨"ui", "packages/ui"⟩]

/-- Oneline log entries of the C2 scenario. -/
def c2commitLines : List String :=
  ["abc1234 feat: add button", "def5678 fix!: null deref"]

/-- The attributed core commit of the C2 scenario. -/
def c2coreCommit : Commit := ⟨"def5678", "fix!: null deref", ["packages/core/src/x.ts"]⟩

/-- The attributed ui commit of the C2 scenario. -/
def c2uiCommit : Commit := ⟨"abc1234", "feat: add button", ["packages/ui/src/Button.ts"]⟩

/-! Claim C1. -/

/-- C1: for every list of commits attributed to one package, the derived bump
equals the reference rule (major on BREAKING CHANGE or !:, else minor on a
trimmed lowercased feat prefix, else patch, in particular patch both for fix
subjects and as the default), and the result is always at least patch. -/
theorem C1_version_bump_matches_reference (commits : List Commit) :
    determineVersionType commits = referenceVersionType (commits.map (fun c => c.message)) ∧
    VersionType.patch.rank ≤ (determineVersionType commits).rank := by
  constructor
  · simp only [determineVersionType, referenceVersionType]
    split
    · rfl
    · split
      · rfl
      · split <;> rfl
  · exact Nat.zero_le _

/-! Claim C2. -/

/-- C2 counterexample: on the claimed scenario the attribution does map the
core package to exactly the fix!: commit, but categorizeCommits places that
commit in the bugFixes bucket (its trimmed lowercased subject starts with fix),
so the others bucket is empty and cannot contain the claimed item. -/
theorem C2_counterexample :
    (categorizeCommitsByPackage c2getFiles c2commitLines c2packages).lookup "core"
      = some [c2coreCommit] ∧
    (categorizeCommits [c2coreCommit]).others = [] ∧
    (categorizeCommits [c2coreCommit]).bugFixes = ["fix!: null deref (def5678)"] := by
  refine ⟨?_, ?_, ?_⟩ <;> rfl

/-- C2 (amended): for the scenario packages and commits, ui gets bump minor
with category features holding "add button (abc1234)", and core gets bump
major (because of the !: marker) with the verbatim item
"fix!: null deref (def5678)" stored in category bugFixes (not others), the
strip regex leaving the subject untouched since fix!: is not followed by a
plain colon. -/
theorem C2_amended_scenario :
    (categorizeCommitsByPackage c2getFiles c2commitLines c2packages).lookup "ui"
      = some [c2uiCommit] ∧
    determineVersionType [c2uiCommit] = .minor ∧
    (categorizeCommits [c2uiCommit]).features = ["add button (abc1234)"] ∧
    (categorizeCommitsByPackage c2getFiles c2commitLines c2packages).lookup "core"
      = some [c2coreCommit] ∧
    determineVersionType [c2coreCommit] = .major ∧
    (categorizeCommits [c2coreCommit]).bugFixes = ["fix!: null deref (def5678)"] ∧
    (categorizeCommits [c2coreCommit]).others = [] := by
  refine ⟨?_, ?_, ?_, ?_, ?_, ?_, ?_⟩ <;> rfl

/-! Characterization of the attribution fold.  The source builds the mapping by
two nested forEach loops over a pre-initialized object; the lemmas below prove
that this fold equals the per-package comprehension, assuming (as the spec data
model states) that package names are unique. -/

/-- Distinct package names identify packages. -/
theorem name_inj {l : List Package} (hnd : (l.map Package.name).Nodup)
    {p q : Package} (hp : p ∈ l) (hq : q ∈ l) (h : p.name = q.name) : p = q := by
  induction l with
  | nil => cases hp
  | cons a rest ih =>
    simp only [List.map_cons, List.nodup_cons] at hnd
    rcases List.mem_cons.mp hp with hpa | hpr
    · rcases List.mem_cons.mp hq with hqa | hqr
      · rw [hpa, hqa]
      · subst hpa
        exact absurd (by rw [h]; exact List.mem_map_of_mem Package.name hqr) hnd.1
    · rcases List.mem_cons.mp hq with hqa | hqr
      · subst hqa
        exact absurd (by rw [← h]; exact List.mem_map_of_mem Package.name hpr) hnd.1
      · exact ih hnd.2 hpr hqr

/-- Pushing an entry onto the object updates exactly the matching package key. -/
theorem updatePkg_map {packages : List Package} (hnd : (packages.map Package.name).Nodup)
    {pkg : Package} (hp : pkg ∈ packages) (e : Commit) (G : Package → List Commit) :
    updatePkg pkg.name e (packages.map (fun p => (p.name, G p))) =
      packages.map (fun p => (p.name, if p.name = pkg.name then G p ++ [e] else G p)) := by
  induction packages with
  | nil => rfl
  | cons a rest ih =>
    simp only [List.map_cons, List.nodup_cons] at hnd
    by_cases han : a.name = pkg.name
    · simp only [List.map_cons, updatePkg, if_pos han]
      congr 1
      refine (List.map_congr_left ?_).symm
      intro p hpr
      have hne : p.name ≠ pkg.name := by
        intro hcontra
        exact hnd.1 (by rw [han, ← hcontra]; exact List.mem_map_of_mem Package.name hpr)
      simp [hne]
    · have hp2 : pkg ∈ rest := by
        rcases List.mem_cons.mp hp with hpa | hpr
        · exact absurd (by rw [hpa]) han
        · exact hpr
      simp only [List.map_cons, updatePkg, if_neg han, ih hnd.2 hp2]

/-- The inner forEach over the packages appends, under every package key, at
most the entry of that package itself. -/
theorem foldl_update_map {packages : List Package} (hnd : (packages.map Package.name).Nodup)
    (cond : Package → Bool) (ent : Package → Commit) :
    ∀ (pkgs : List Package), pkgs.Sublist packages → ∀ (G : Package → List Commit),
      pkgs.foldl (fun acc pkg =>
          if cond pkg then updatePkg pkg.name (ent pkg) acc else acc)
          (packages.map (fun p => (p.name, G p))) =
        packages.map (fun p =>
          (p.name, G p ++ if p ∈ pkgs ∧ cond p then [ent p] else [])) := by
  intro pkgs
  induction pkgs with
  | nil =>
    intro _ G
    simp
  | cons q rest ih =>
    intro hsub G
    have hq : q ∈ packages := hsub.subset (List.mem_cons_self q rest)
    have hrest : rest.Sublist packages := (List.sublist_cons_self q rest).trans hsub
    have hndsub : ((q :: rest).map Package.name).Nodup :=
      List.Nodup.sublist (hsub.map Package.name) hnd
    have hqrest : q ∉ rest := by
      intro hmem
      simp only [List.map_cons, List.nodup_cons] at hndsub
      exact hndsub.1 (List.mem_map_of_mem Package.name hmem)
    rw [List.foldl_cons]
    by_cases hcq : cond q = true
    · rw [if_pos hcq, updatePkg_map hnd hq (ent q) G,
        ih hrest (fun p => if p.name = q.name then G p ++ [ent q] else G p)]
      refine List.map_congr_left ?_
      intro p hpmem
      by_cases hpn : p.name = q.name
      · have hpq : p = q := name_inj hnd hpmem hq hpn
        subst hpq
        simp [hqrest, hcq]
      · have hpq : p ≠ q := fun h => hpn (by rw [h])
        simp [hpn, List.mem_cons, hpq]
    · rw [if_neg hcq, ih hrest G]
      refine List.map_congr_left ?_
      intro p hpmem
      by_cases hpq : p = q
      · subst hpq
        simp [hqrest, hcq]
      · simp [List.mem_cons, hpq]

/-- Processing the whole commit list appends, under every package key, exactly
the per-line contributions of that package. -/
theorem foldl_process_map {packages : List Package}
    (hnd : (packages.map Package.name).Nodup) (getFiles : String → List String) :
    ∀ (commits : List String) (G : Package → List Commit),
      commits.foldl (processCommit getFiles packages)
          (packages.map (fun p => (p.name, G p))) =
        packages.map (fun p => (p.name, G p ++ commits.filterMap (attrEntry getFiles p))) := by
  intro commits
  induction commits with
  | nil =>
    intro G
    simp
  | cons line rest ih =>
    intro G
    rw [List.foldl_cons]
    have hstep : processCommit getFiles packages
        (packages.map (fun p => (p.name, G p))) line =
        packages.map (fun p => (p.name, G p ++ (attrEntry getFiles p line).toList)) := by
      refine (foldl_update_map hnd
        (fun pkg => (getFiles (parseCommitLine line).1).any (fun f => fileInPackage pkg f))
        (fun pkg => ⟨(parseCommitLine line).1, (parseCommitLine line).2,
          (getFiles (parseCommitLine line).1).filter (fun f => fileInPackage pkg f)⟩)
        packages (List.Sublist.refl packages) G).trans ?_
      refine List.map_congr_left ?_
      intro p hpmem
      by_cases hc : (getFiles (parseCommitLine line).1).any (fun f => fileInPackage p f) = true
      · simp [attrEntry, hpmem, hc]
      · simp [attrEntry, hpmem, hc]
    rw [hstep, ih (fun p => G p ++ (attrEntry getFiles p line).toList)]
    refine List.map_congr_left ?_
    intro p _
    rw [List.filterMap_cons]
    cases h : attrEntry getFiles p line <;> simp [h]

/-- The attribution object equals the per-package comprehension: each package
key carries the ordered list of its per-line contributions, and empty packages
are deleted. -/
theorem categorize_eq_filterMap (getFiles : String → List String) (commits : List String)
    (packages : List Package) (hnd : (packages.map Package.name).Nodup) :
    categorizeCommitsByPackage getFiles commits packages =
      (packages.map (fun p => (p.name, commits.filterMap (attrEntry getFiles p)))).filter
        (fun entry => !entry.2.isEmpty) := by
  unfold categorizeCommitsByPackage
  rw [foldl_process_map hnd getFiles commits (fun _ => ([] : List Commit))]
  simp only [List.nil_append]

/-- Lookup in an association list whose keys all differ from the query. -/
theorem lookup_eq_none_of_keys {β : Type} {l : List (String × β)} {n : String}
    (h : ∀ e ∈ l, e.1 ≠ n) : l.lookup n = none := by
  induction l with
  | nil => rfl
  | cons e rest ih =>
    rcases e with ⟨k, v⟩
    rw [List.lookup_cons]
    have hk : k ≠ n := h (k, v) (List.mem_cons_self _ _)
    have hbeq : (n == k) = false := beq_eq_false_iff_ne.mpr (fun hc => hk hc.symm)
    rw [hbeq]
    exact ih (fun e he => h e (List.mem_cons_of_mem _ he))

/-- Lookup of a package key in the filtered comprehension. -/
theorem lookup_filter_map {packages : List Package}
    (hnd : (packages.map Package.name).Nodup) (A : Package → List Commit)
    (P : String × List Commit → Bool) {pkg : Package} (hp : pkg ∈ packages) :
    ((packages.map (fun p => (p.name, A p))).filter P).lookup pkg.name =
      if P (pkg.name, A pkg) then some (A pkg) else none := by
  induction packages with
  | nil => cases hp
  | cons a rest ih =>
    simp only [List.map_cons, List.nodup_cons] at hnd
    rcases List.mem_cons.mp hp with hpa | hp2
    · subst hpa
      have hkeys : ∀ e ∈ (rest.map (fun p => (p.name, A p))).filter P, e.1 ≠ pkg.name := by
        intro e he hcontra
        have he2 := (List.mem_filter.mp he).1
        rcases List.mem_map.mp he2 with ⟨p, hpmem, rfl⟩
        exact hnd.1 (by rw [← hcontra]; exact List.mem_map_of_mem Package.name hpmem)
      simp only [List.map_cons]
      by_cases hPa : P (pkg.name, A pkg) = true
      · rw [List.filter_cons_of_pos hPa, List.lookup_cons]
        simp [hPa]
      · rw [List.filter_cons_of_neg hPa, lookup_eq_none_of_keys hkeys]
        simp [hPa]
    · have hne : a.name ≠ pkg.name := by
        intro hcontra
        exact hnd.1 (by rw [hcontra]; exact List.mem_map_of_mem Package.name hp2)
      have hbeq : (pkg.name == a.name) = false := beq_eq_false_iff_ne.mpr (fun hc => hne hc.symm)
      simp only [List.map_cons]
      by_cases hPa : P (a.name, A a) = true
      · rw [List.filter_cons_of_pos hPa, List.lookup_cons, hbeq]
        exact ih hnd.2 hp2
      · rw [List.filter_cons_of_neg hPa]
        exact ih hnd.2 hp2

/-- Lookup of a package in the attribution result: its comprehension when that
is non-empty, and absent otherwise. -/
theorem lookup_categorize (getFiles : String → List String) (commits : List String)
    {packages : List Package} (hnd : (packages.map Package.name).Nodup)
    {pkg : Package} (hp : pkg ∈ packages) :
    (categorizeCommitsByPackage getFiles commits packages).lookup pkg.name =
      (if (commits.filterMap (attrEntry getFiles pkg)).isEmpty then none
       else some (commits.filterMap (attrEntry getFiles pkg))) := by
  rw [categorize_eq_filterMap getFiles commits packages hnd,
    lookup_filter_map hnd (fun p => commits.filterMap (attrEntry getFiles p)) _ hp]
  by_cases h : (commits.filterMap (attrEntry getFiles pkg)).isEmpty = true <;> simp [h]

/-! Claim C3. -/

/-- C3: whenever the attribution maps package pkg to the commit list cs, the
list is exactly the per-line comprehension (so each commit line is recorded at
most once under pkg, however many of its files match, giving length at most
the number of commits), and every recorded file starts with the package root
path followed by the separator. -/
theorem C3_path_invariant (getFiles : String → List String) (commits : List String)
    (packages : List Package) (hnd : (packages.map Package.name).Nodup)
    (pkg : Package) (hp : pkg ∈ packages) (cs : List Commit)
    (hcs : (categorizeCommitsByPackage getFiles commits packages).lookup pkg.name = some cs) :
    cs = commits.filterMap (attrEntry getFiles pkg) ∧
    cs.length ≤ commits.length ∧
    ∀ c ∈ cs, ∀ f ∈ c.files, jsStartsWith f (pkg.path ++ "/") = true := by
  rw [lookup_categorize getFiles commits hnd hp] at hcs
  split at hcs
  · cases hcs
  · have hcs2 : cs = commits.filterMap (attrEntry getFiles pkg) := (Option.some.inj hcs).symm
    refine ⟨hcs2, ?_, ?_⟩
    · rw [hcs2]
      exact List.length_filterMap_le _ _
    · intro c hc f hf
      rw [hcs2] at hc
      rcases List.mem_filterMap.mp hc with ⟨line, _, hline⟩
      simp only [attrEntry] at hline
      split at hline
      · cases hline
        simp only at hf
        exact (List.mem_filter.mp hf).2
      · cases hline

/-- Witness for C3 at the concrete scenario data. -/
theorem C3_path_invariant_witness :
    ([c2uiCommit] : List Commit) = c2commitLines.filterMap (attrEntry c2getFiles ⟨"ui", "packages/ui"⟩) ∧
    ([c2uiCommit] : List Commit).length ≤ c2commitLines.length ∧
    ∀ c ∈ [c2uiCommit], ∀ f ∈ c.files, jsStartsWith f ("packages/ui" ++ "/") = true :=
  C3_path_invariant c2getFiles c2commitLines c2packages (by decide)
    ⟨"ui", "packages/ui"⟩ (by decide) [c2uiCommit] (by rfl)

/-! Claim C4. -/

/-- C4: a commit line none of whose changed files lies below any package root
contributes nothing: dropping it leaves both the attribution and the generated
output documents unchanged; and a package with no attributed commit has no key
in the attribution, hence produces no changeset at all. -/
theorem C4_no_crosstalk (getFiles : String → List String) (packages : List Package)
    (l1 l2 commits : List String) (line : String) (prNumber : String) (prUrl : Option String) :
    ((∀ pkg ∈ packages, ∀ f ∈ getFiles (parseCommitLine line).1, fileInPackage pkg f = false) →
      categorizeCommitsByPackage getFiles (l1 ++ line :: l2) packages =
        categorizeCommitsByPackage getFiles (l1 ++ l2) packages ∧
      pipelineOutputs getFiles packages (l1 ++ line :: l2) prNumber prUrl =
        pipelineOutputs getFiles packages (l1 ++ l2) prNumber prUrl) ∧
    ((packages.map Package.name).Nodup → ∀ pkg ∈ packages,
      commits.filterMap (attrEntry getFiles pkg) = [] →
      (categorizeCommitsByPackage getFiles commits packages).lookup pkg.name = none) := by
  constructor
  · intro hout
    have key : ∀ acc, processCommit getFiles packages acc line = acc := by
      intro acc
      simp only [processCommit]
      have : ∀ (pkgs : List Package), (∀ pkg ∈ pkgs, pkg ∈ packages) →
          ∀ (a : List (String × List Commit)), pkgs.foldl (fun acc pkg =>
            if (getFiles (parseCommitLine line).1).any (fun f => fileInPackage pkg f) then
              updatePkg pkg.name ⟨(parseCommitLine line).1, (parseCommitLine line).2,
                (getFiles (parseCommitLine line).1).filter (fun f => fileInPackage pkg f)⟩ acc
            else acc) a = a := by
        intro pkgs
        induction pkgs with
        | nil => intro _ a; rfl
        | cons q rest ih =>
          intro hsub a
          have hq : q ∈ packages := hsub q (List.mem_cons_self _ _)
          have hcond : (getFiles (parseCommitLine line).1).any (fun f => fileInPackage q f) = false := by
            rw [List.any_eq_false]
            intro f hf
            simp [hout q hq f hf]
          rw [List.foldl_cons, if_neg (by simp [hcond])]
          exact ih (fun p hp => hsub p (List.mem_cons_of_mem _ hp)) a
      exact this packages (fun _ hp => hp) acc
    have hattr : categorizeCommitsByPackage getFiles (l1 ++ line :: l2) packages =
        categorizeCommitsByPackage getFiles (l1 ++ l2) packages := by
      unfold categorizeCommitsByPackage
      rw [List.foldl_append, List.foldl_append, List.foldl_cons, key]
    exact ⟨hattr, by simp only [pipelineOutputs, hattr]⟩
  · intro hnd pkg hp hempty
    rw [lookup_categorize getFiles commits hnd hp, hempty]
    rfl

/-- Witness for C4: a root-only commit line is invisible to the pipeline, and
the ui package, left without attributed commits, yields no changeset. -/
theorem C4_no_crosstalk_witness :
    (categorizeCommitsByPackage c2getFiles ([] ++ "aaa1111 chore: update root" :: []) c2packages =
        categorizeCommitsByPackage c2getFiles ([] ++ []) c2packages ∧
      pipelineOutputs c2getFiles c2packages ([] ++ "aaa1111 chore: update root" :: []) "9" none =
        pipelineOutputs c2getFiles c2packages ([] ++ []) "9" none) ∧
    (categorizeCommitsByPackage c2getFiles ["aaa1111 chore: update root"] c2packages).lookup "ui" = none :=
  ⟨(C4_no_crosstalk c2getFiles c2packages [] [] ["aaa1111 chore: update root"]
      "aaa1111 chore: update root" "9" none).1 (by decide),
   (C4_no_crosstalk c2getFiles c2packages [] [] ["aaa1111 chore: update root"]
      "aaa1111 chore: update root" "9" none).2 (by decide) ⟨"ui", "packages/ui"⟩ (by decide) (by rfl)⟩

/-! The file-system state and the writer.  fs.writeFileSync at a fixed path
fully overwrites, so a run is a fold of overwriting writes. -/

/-- The observable file-system state: content (if any) at each path. -/
abbrev FileSystem := String → Option String

/-- fs.writeFileSync: full overwrite of one path. -/
def fsWrite (fs : FileSystem) (name content : String) : FileSystem :=
  fun m => if m = name then some content else fs m

/-- The write loop of main over the generated documents. -/
def runWrites (fs : FileSystem) (outs : List (String × String)) : FileSystem :=
  outs.foldl (fun fs out => fsWrite fs out.1 out.2) fs

/-- The last element of a cons with a non-empty tail ignores the head. -/
theorem getLast?_cons_ne {α : Type} (a : α) {l : List α} (h : l ≠ []) :
    (a :: l).getLast? = l.getLast? := by
  cases l with
  | nil => exact absurd rfl h
  | cons b t => rfl

/-- After the write loop, each path holds the content of the last write to it,
or its previous content when the run never writes it. -/
theorem runWrites_apply (fs : FileSystem) (outs : List (String × String)) (m : String) :
    runWrites fs outs m =
      match (outs.filter (fun o => o.1 == m)).getLast? with
      | some o => some o.2
      | none => fs m := by
  induction outs generalizing fs with
  | nil => rfl
  | cons o rest ih =>
    have h1 : runWrites fs (o :: rest) = runWrites (fsWrite fs o.1 o.2) rest := rfl
    rw [h1, ih, List.filter_cons]
    by_cases hm : (o.1 == m) = true
    · rw [if_pos hm]
      cases hLast : (rest.filter (fun o => o.1 == m)).getLast? with
      | some o2 =>
        have hne : rest.filter (fun o => o.1 == m) ≠ [] := by
          intro hnil
          rw [hnil] at hLast
          cases hLast
        rw [getLast?_cons_ne o hne, hLast]
      | none =>
        have hnil : rest.filter (fun o => o.1 == m) = [] := List.getLast?_eq_none_iff.mp hLast
        rw [hnil]
        have hmo : m = o.1 := (beq_iff_eq.mp hm).symm
        simp [fsWrite, hmo]
    · rw [if_neg hm]
      cases hLast : (rest.filter (fun o => o.1 == m)).getLast? with
      | some o2 => rfl
      | none =>
        have hmo : m ≠ o.1 := fun he => hm (beq_iff_eq.mpr he.symm)
        simp [fsWrite, hmo]

/-- Re-running the same writes leaves the file system unchanged. -/
theorem runWrites_idem (fs : FileSystem) (outs : List (String × String)) :
    runWrites (runWrites fs outs) outs = runWrites fs outs := by
  funext m
  rw [runWrites_apply (runWrites fs outs) outs m, runWrites_apply fs outs m]
  cases hLast : (outs.filter (fun o => o.1 == m)).getLast? with
  | some o => rfl
  | none => rfl

/-! Claim C5. -/

/-- C5: one run's documents are a pure function of the packages, the resolved
commit range and the PR identity; every output path is the deterministic
changesetFilename of (prNumber, sanitized package name); and re-running the
pipeline with the same inputs overwrites the same files with byte-identical
content, leaving the file system exactly as after the first run. -/
theorem C5_deterministic_idempotent (fs : FileSystem) (getFiles : String → List String)
    (packages : List Package) (commits : List String) (prNumber : String)
    (prUrl : Option String) :
    (pipelineOutputs getFiles packages commits prNumber prUrl).map Prod.fst =
      (categorizeCommitsByPackage getFiles commits packages).map
        (fun entry => changesetFilename prNumber entry.1) ∧
    runWrites (runWrites fs (pipelineOutputs getFiles packages commits prNumber prUrl))
        (pipelineOutputs getFiles packages commits prNumber prUrl) =
      runWrites fs (pipelineOutputs getFiles packages commits prNumber prUrl) := by
  constructor
  · simp [pipelineOutputs]
  · exact runWrites_idem fs _

/-! The external git query interface and the control flow of main.  Each field
models one git invocation: a some result is the raw stdout of a successful
command, none is a thrown error. -/

/-- The version-control oracle and discovered package list of one run. -/
structure GitEnv where
  packages : List Package
  upstream : String → Option String
  verifyRef : String → Bool
  mergeBase : String → String → Option String
  log : String → String → Option String
  showFiles : String → Option String

/-- Translation of getCommitsInRange (lines 117-135): parse the oneline log,
and fall back to the empty list when the query throws. -/
def getCommitsInRange (env : GitEnv) (fromRef toRef : String) : List String :=
  match env.log fromRef toRef with
  | some out => (jsSplit (jsTrim out) '\n').filter (fun line => line.length > 0)
  | none => []

/-- Translation of getChangedFilesInCommit (lines 144-154): parse the shown
file list, and fall back to the empty list when the query throws. -/
def getChangedFilesInCommit (env : GitEnv) (commitHash : String) : List String :=
  match env.showFiles commitHash with
  | some out => (jsSplit (jsTrim out) '\n').filter (fun line => line.length > 0)
  | none => []

/-- The ordered fallback candidates of getDefaultBaseRef (line 462). -/
def baseCandidates : List String := ["origin/main", "main", "origin/master", "master"]

/-- The candidate loop of getDefaultBaseRef: first verifiable candidate, else
the hard-coded fallback. -/
def probeCandidates (env : GitEnv) : String :=
  match baseCandidates.find? (fun c => env.verifyRef c) with
  | some c => c
  | none => "origin/main"

/-- Translation of getDefaultBaseRef (lines 455-471): a non-empty upstream
wins, otherwise probe the candidates. -/
def getDefaultBaseRef (env : GitEnv) (branch : String) : String :=
  match env.upstream branch with
  | some out => if jsTrim out = "" then probeCandidates env else jsTrim out
  | none => probeCandidates env

/-- targetArg || getDefaultBaseRef(sourceBranch) from main (line 473). -/
def resolveTargetBranch (env : GitEnv) (targetArg : Option String) (sourceBranch : String) : String :=
  match targetArg with
  | some t => t
  | none => getDefaultBaseRef env sourceBranch

/-- The merge-base computation of main (lines 474-480) with its soft fallback
to the target branch. -/
def computeMergeBase (env : GitEnv) (targetBranch sourceBranch : String) : String :=
  match env.mergeBase targetBranch sourceBranch with
  | some out => jsTrim out
  | none => targetBranch

/-- Reference target-branch resolution, written from the words of the spec for
claim C7: the override if given, else the resolving upstream, else the first
of origin/main, main, origin/master, master that verifies, else the
hard-coded origin/main. -/
def referenceCandidateProbe (env : GitEnv) : String :=
  if env.verifyRef "origin/main" then "origin/main"
  else if env.verifyRef "main" then "main"
  else if env.verifyRef "origin/master" then "origin/master"
  else if env.verifyRef "master" then "master"
  else "origin/main"

/-- Reference resolution order for claim C7 (see referenceCandidateProbe). -/
def referenceTargetBranch (env : GitEnv) (override : Option String) (src : String) : String :=
  match override with
  | some t => t
  | none =>
    match env.upstream src with
    | some out => if jsTrim out = "" then referenceCandidateProbe env else jsTrim out
    | none => referenceCandidateProbe env

/-! Argument parsing of main (lines 426-444), with JS truthiness. -/

/-- The regex test distinguishing the PR URL argument. -/
def isUrlArg (s : String) : Bool :=
  jsStartsWith (jsToLower s) "http://" || jsStartsWith (jsToLower s) "https://"

/-- args.find(arg matching the URL regex) || null. -/
def parsedPrUrl (args : List String) : Option String :=
  args.find? isUrlArg

/-- The positional arguments that are not the URL. -/
def parsedNonUrl (args : List String) : List String :=
  args.filter (fun a => !isUrlArg a)

/-- nonUrlArgs[0] || null. -/
def parsedSource (args : List String) : Option String :=
  jsOr (parsedNonUrl args)[0]? none

/-- nonUrlArgs[1] || null. -/
def parsedTargetArg (args : List String) : Option String :=
  jsOr (parsedNonUrl args)[1]? none

/-- nonUrlArgs[2] || (prUrl ? prUrl.split('/').pop() : null). -/
def parsedPrNumber (args : List String) : Option String :=
  jsOr (parsedNonUrl args)[2]? ((parsedPrUrl args).map lastSegment)

/-- The observable outcome of one invocation: a fatal exit code, or success
with the list of (file name, content) documents written. -/
inductive RunOutcome where
  | fatalExit (code : Nat)
  | success (written : List (String × String))
  deriving Repr, DecidableEq

/-- The tail of main after the commit list is known: empty range and empty
attribution short-circuit successfully, else the changesets are written. -/
def runAttribution (env : GitEnv) (prUrl : Option String) (prNumber : String)
    (commits : List String) : RunOutcome :=
  if commits.isEmpty then .success []
  else
    if (categorizeCommitsByPackage (getChangedFilesInCommit env) commits env.packages).isEmpty then
      .success []
    else
      .success (pipelineOutputs (getChangedFilesInCommit env) env.packages commits prNumber prUrl)

/-- Translation of main (lines 425-536): argument checks in source order, then
range resolution, package discovery check, and the analysis pipeline. -/
def mainModel (env : GitEnv) (args : List String) : RunOutcome :=
  match parsedSource args with
  | none => .fatalExit 1
  | some sourceBranch =>
    if jsFalsyOpt (parsedPrNumber args) then .fatalExit 1
    else
      let targetBranch := resolveTargetBranch env (parsedTargetArg args) sourceBranch
      let mergeBase := computeMergeBase env targetBranch sourceBranch
      if env.packages.isEmpty then .fatalExit 1
      else
        runAttribution env (parsedPrUrl args) ((parsedPrNumber args).getD "")
          (getCommitsInRange env mergeBase sourceBranch)

/-! Claim C7. -/

/-- The candidate loop equals the spec-side ordered probe. -/
theorem probeCandidates_eq (env : GitEnv) : probeCandidates env = referenceCandidateProbe env := by
  unfold probeCandidates referenceCandidateProbe baseCandidates
  cases h1 : env.verifyRef "origin/main" <;>
    cases h2 : env.verifyRef "main" <;>
      cases h3 : env.verifyRef "origin/master" <;>
        cases h4 : env.verifyRef "master" <;>
          simp [List.find?_cons, h1, h2, h3, h4]

/-- C7: the target branch used by main is resolved exactly in the claimed
order: explicit override, else resolving upstream, else the first verifiable
candidate of origin/main, main, origin/master, master, else origin/main. -/
theorem C7_target_resolution_order (env : GitEnv) (targetArg : Option String) (src : String) :
    resolveTargetBranch env targetArg src = referenceTargetBranch env targetArg src := by
  cases targetArg with
  | some t => rfl
  | none =>
    simp only [resolveTargetBranch, referenceTargetBranch, getDefaultBaseRef]
    cases hup : env.upstream src with
    | some out =>
      by_cases hemp : jsTrim out = ""
      · simp [hemp, probeCandidates_eq env]
      · simp [hemp]
    | none => exact probeCandidates_eq env

/-! Claims C6 and C8. -/

/-- When the parse succeeds, packages exist, and every log query of the run
yields no commits, main ends successfully writing nothing. -/
theorem mainModel_success_empty (env : GitEnv) (args : List String) (src : String)
    (hs : parsedSource args = some src) (hpr : jsFalsyOpt (parsedPrNumber args) = false)
    (hpe : env.packages.isEmpty = false)
    (hlog2 : ∀ f t, getCommitsInRange env f t = []) :
    mainModel env args = .success [] := by
  unfold mainModel
  rw [hs]
  simp only [hpr, Bool.false_eq_true, if_false, hpe, hlog2, runAttribution,
    List.isEmpty_nil, if_true]

/-- C6: query degradation never aborts: a failing merge-base query makes the
lower bound the target branch itself, a failing per-commit file query makes
that file list empty, and with the arguments accepted and packages present the
run always reaches a success outcome, whatever the query oracle answers. -/
theorem C6_query_degradation :
    (∀ (env : GitEnv) (t s : String), env.mergeBase t s = none → computeMergeBase env t s = t) ∧
    (∀ (env : GitEnv) (h : String), env.showFiles h = none → getChangedFilesInCommit env h = []) ∧
    (∀ (env : GitEnv) (args : List String) (src : String),
      parsedSource args = some src → jsFalsyOpt (parsedPrNumber args) = false →
      env.packages ≠ [] → ∃ written, mainModel env args = .success written) := by
  refine ⟨?_, ?_, ?_⟩
  · intro env t s h
    simp [computeMergeBase, h]
  · intro env h hq
    simp [getChangedFilesInCommit, hq]
  · intro env args src hs hpr hpkg
    have hpe : env.packages.isEmpty = false := by
      cases hp2 : env.packages with
      | nil => exact absurd hp2 hpkg
      | cons a l => rfl
    unfold mainModel
    rw [hs]
    simp only [hpr, Bool.false_eq_true, if_false, hpe]
    unfold runAttribution
    split
    · exact ⟨[], rfl⟩
    · split
      · exact ⟨[], rfl⟩
      · exact ⟨_, rfl⟩

/-- A fully failing oracle over the scenario packages, for the witnesses. -/
def witnessEnv : GitEnv where
  packages := c2packages
  upstream := fun _ => none
  verifyRef := fun _ => false
  mergeBase := fun _ _ => none
  log := fun _ _ => none
  showFiles := fun _ => none

/-- Witness for C6 at the failing oracle. -/
theorem C6_query_degradation_witness :
    computeMergeBase witnessEnv "origin/main" "feature/x" = "origin/main" ∧
    getChangedFilesInCommit witnessEnv "abc1234" = [] ∧
    ∃ written, mainModel witnessEnv ["feature/x", "origin/main", "123"] = .success written :=
  ⟨C6_query_degradation.1 witnessEnv "origin/main" "feature/x" rfl,
   C6_query_degradation.2.1 witnessEnv "abc1234" rfl,
   C6_query_degradation.2.2 witnessEnv ["feature/x", "origin/main", "123"] "feature/x"
     (by decide) (by decide) (by decide)⟩

/-- C8: when the commit-listing query throws, the loader returns the empty
commit list, and a run whose arguments are accepted and whose packages exist
terminates successfully with no output files, exactly as the run whose log
query genuinely returns an empty range. -/
theorem C8_failed_log_like_empty_range (env : GitEnv) (args : List String)
    (hlog : env.log = fun _ _ => none) :
    (∀ f t, getCommitsInRange env f t = []) ∧
    (∀ src, parsedSource args = some src → jsFalsyOpt (parsedPrNumber args) = false →
      env.packages ≠ [] →
      mainModel env args = .success [] ∧
      mainModel { env with log := fun _ _ => some "" } args = .success []) := by
  have hempty : ∀ f t, getCommitsInRange env f t = [] := by
    intro f t
    simp [getCommitsInRange, hlog]
  refine ⟨hempty, ?_⟩
  intro src hs hpr hpkg
  have hpe : env.packages.isEmpty = false := by
    cases hp2 : env.packages with
    | nil => exact absurd hp2 hpkg
    | cons a l => rfl
  refine ⟨mainModel_success_empty env args src hs hpr hpe hempty, ?_⟩
  exact mainModel_success_empty { env with log := fun _ _ => some "" } args src hs hpr hpe
    (fun f t => rfl)

/-- Witness for C8 at the failing oracle. -/
theorem C8_failed_log_witness :
    getCommitsInRange witnessEnv "origin/main" "feature/x" = [] ∧
    mainModel witnessEnv ["feature/x", "origin/main", "123"] = .success [] ∧
    mainModel { witnessEnv with log := fun _ _ => some "" }
      ["feature/x", "origin/main", "123"] = .success [] :=
  ⟨(C8_failed_log_like_empty_range witnessEnv ["feature/x", "origin/main", "123"] rfl).1
      "origin/main" "feature/x",
   ((C8_failed_log_like_empty_range witnessEnv ["feature/x", "origin/main", "123"] rfl).2
      "feature/x" (by decide) (by decide) (by decide)).1,
   ((C8_failed_log_like_empty_range witnessEnv ["feature/x", "origin/main", "123"] rfl).2
      "feature/x" (by decide) (by decide) (by decide)).2⟩

/-! Claim C10: splitting behaviour behind prUrl.split('/').pop(). -/

/-- A JS split never returns an empty array. -/
theorem splitChar_ne_nil (c : Char) (l : List Char) : splitChar c l ≠ [] := by
  cases l with
  | nil => simp [splitChar]
  | cons x xs =>
    simp only [splitChar]
    cases h : splitChar c xs with
    | nil => simp
    | cons hh tt => by_cases hx : x = c <;> simp [hx]

/-- Unfolding of the cons case of splitChar once the tail split is known. -/
theorem splitChar_cons (c x : Char) (xs hh : List Char) (tt : List (List Char))
    (h : splitChar c xs = hh :: tt) :
    splitChar c (x :: xs) = if x = c then [] :: hh :: tt else (x :: hh) :: tt := by
  simp only [splitChar, h]

/-- A JS split has one more field than separator occurrences. -/
theorem splitChar_length (c : Char) (l : List Char) :
    (splitChar c l).length = l.count c + 1 := by
  induction l with
  | nil => rfl
  | cons x xs ih =>
    cases h : splitChar c xs with
    | nil => exact absurd h (splitChar_ne_nil c xs)
    | cons hh tt =>
      rw [h] at ih
      rw [splitChar_cons c x xs hh tt h]
      by_cases hx : x = c
      · subst hx
        simp only [if_pos rfl, List.length_cons, List.count_cons, beq_self_eq_true, if_true]
        simp only [List.length_cons] at ih
        omega
      · have hbeq : (x == c) = false := beq_eq_false_iff_ne.mpr hx
        rw [if_neg hx]
        simp only [List.length_cons, List.count_cons, hbeq, Bool.false_eq_true, if_false]
        simp only [List.length_cons] at ih
        omega

/-- Splitting a string that ends with the separator yields an empty final
field: this is what prUrl.split('/').pop() returns on a trailing slash. -/
theorem splitChar_append_sep (c : Char) (v : List Char) :
    (splitChar c (v ++ [c])).getLast? = some [] := by
  induction v with
  | nil =>
    show (splitChar c ([] ++ [c])).getLast? = some []
    rw [List.nil_append, splitChar_cons c c [] [] [] rfl, if_pos rfl]
    rfl
  | cons a v ih =>
    rw [List.cons_append]
    cases h : splitChar c (v ++ [c]) with
    | nil => exact absurd h (splitChar_ne_nil _ _)
    | cons hh tt =>
      have htt : tt ≠ [] := by
        have hlen := splitChar_length c (v ++ [c])
        rw [h] at hlen
        intro hnil
        subst hnil
        have hpos : 0 < (v ++ [c]).count c :=
          List.count_pos_iff.mpr (List.mem_append_right _ (by simp))
        simp only [List.length_cons, List.length_nil] at hlen
        omega
      rw [h] at ih
      rw [splitChar_cons c a (v ++ [c]) hh tt h]
      by_cases hac : a = c
      · rw [if_pos hac, getLast?_cons_ne [] (by simp)]
        exact ih
      · rw [if_neg hac, getLast?_cons_ne (a :: hh) htt]
        rw [getLast?_cons_ne hh htt] at ih
        exact ih

/-- The PR identifier derived from a URL with a trailing slash is empty. -/
theorem lastSegment_of_trailing (u : String) (h : u.data.getLast? = some '/') :
    lastSegment u = "" := by
  have hne : u.data ≠ [] := by
    intro hnil
    rw [hnil] at h
    cases h
  have hlast : u.data.getLast hne = '/' := by
    have h2 := List.getLast?_eq_getLast u.data hne
    rw [h2] at h
    exact Option.some.inj h
  have hdecomp : u.data.dropLast ++ ['/'] = u.data := by
    rw [← hlast]
    exact List.dropLast_append_getLast hne
  unfold lastSegment jsSplit
  rw [← hdecomp, List.getLastD_eq_getLast?, List.getLast?_map, splitChar_append_sep]
  rfl

/-- C10: when no explicit PR identifier argument is present and the URL ends
with a slash, the identifier derived from the URL's trailing segment is the
empty string, which JS truthiness treats as missing, so main exits fatally
with code 1 before consulting the git oracle at all (the outcome is the same
for every oracle). -/
theorem C10_trailing_slash_pr_fatal (env : GitEnv) (u : String)
    (hurl : isUrlArg u = true) (hslash : u.data.getLast? = some '/') :
    mainModel env [u, "feature/x"] = .fatalExit 1 := by
  have hs2 : isUrlArg "feature/x" = false := by decide
  have hnonurl : parsedNonUrl [u, "feature/x"] = ["feature/x"] := by
    simp [parsedNonUrl, List.filter_cons, hurl, hs2]
  have hpru : parsedPrUrl [u, "feature/x"] = some u := by
    simp [parsedPrUrl, List.find?_cons, hurl]
  have hps : parsedSource [u, "feature/x"] = some "feature/x" := by
    simp only [parsedSource, hnonurl]
    rfl
  have hpn : parsedPrNumber [u, "feature/x"] = some (lastSegment u) := by
    simp only [parsedPrNumber, hnonurl, hpru]
    rfl
  unfold mainModel
  rw [hps, hpn, lastSegment_of_trailing u hslash]
  simp [jsFalsyOpt]

/-- Witness for C10 at a concrete trailing-slash URL. -/
theorem C10_trailing_slash_witness :
    mainModel witnessEnv ["https://github.com/o/r/pull/123/", "feature/x"] = .fatalExit 1 :=
  C10_trailing_slash_pr_fatal witnessEnv "https://github.com/o/r/pull/123/"
    (by decide) (by decide)

/-! Claim C9: the sanitization replaces only first occurrences. -/

/-- replace leaves a list without the pattern untouched. -/
theorem replaceFirstChar_of_not_mem {c : Char} (r : List Char) {l : List Char} (h : c ∉ l) :
    replaceFirstChar c r l = l := by
  induction l with
  | nil => rfl
  | cons x xs ih =>
    have hx : x ≠ c := fun he => h (he ▸ List.mem_cons_self x xs)
    simp only [replaceFirstChar, if_neg hx]
    rw [ih (fun hm => h (List.mem_cons_of_mem _ hm))]

/-- Count of the pattern character after replacing its first occurrence. -/
theorem count_replaceFirstChar_self (c : Char) (r : List Char) {l : List Char} (h : c ∈ l) :
    (replaceFirstChar c r l).count c = r.count c + (l.count c - 1) := by
  induction l with
  | nil => cases h
  | cons x xs ih =>
    by_cases hx : x = c
    · subst hx
      simp only [replaceFirstChar, if_pos rfl, List.count_append, List.count_cons,
        beq_self_eq_true, if_true]
      omega
    · have hxs : c ∈ xs := by
        rcases List.mem_cons.mp h with he | hm
        · exact absurd he.symm hx
        · exact hm
      have hbeq : (x == c) = false := beq_eq_false_iff_ne.mpr hx
      simp only [replaceFirstChar, if_neg hx, List.count_cons, hbeq, Bool.false_eq_true,
        if_false, ih hxs, Nat.add_zero]

/-- Count of any other character after replacing the first pattern occurrence. -/
theorem count_replaceFirstChar_other {c d : Char} (hne : d ≠ c) (r : List Char) (l : List Char) :
    (replaceFirstChar c r l).count d =
      l.count d + (if c ∈ l then r.count d else 0) := by
  induction l with
  | nil => simp [replaceFirstChar]
  | cons x xs ih =>
    by_cases hx : x = c
    · subst hx
      have hbeq : (x == d) = false := beq_eq_false_iff_ne.mpr (fun he => hne he.symm)
      simp only [replaceFirstChar, if_pos rfl, List.count_append, List.count_cons, hbeq,
        Bool.false_eq_true, if_false, List.mem_cons, true_or, if_true, eq_self_iff_true,
        Nat.add_zero]
      omega
    · have hmem : (c ∈ x :: xs) ↔ (c ∈ xs) := by
        rw [List.mem_cons]
        constructor
        · rintro (he | hm)
          · exact absurd he.symm hx
          · exact hm
        · exact fun hm => Or.inr hm
      simp only [replaceFirstChar, if_neg hx, List.count_cons, ih, hmem]
      cases hxd : (x == d) <;> by_cases hcx : c ∈ xs <;> simp [hxd, hcx] <;> omega

/-- C9: the sanitization of the output file name removes only the first @ and
replaces only the first / of the package name: a name with at most one of each
loses both, while a name with two or more slashes keeps a slash in the
computed file name. -/
theorem C9_sanitize_first_occurrence_only (name : String) :
    (name.data.count '@' ≤ 1 → name.data.count '/' ≤ 1 →
      '@' ∉ (safePackageName name).data ∧ '/' ∉ (safePackageName name).data) ∧
    (2 ≤ name.data.count '/' → '/' ∈ (safePackageName name).data) := by
  have hdata : (safePackageName name).data =
      replaceFirstChar '/' ['-'] (replaceFirstChar '@' [] name.data) := rfl
  have hasl : ('@' : Char) ≠ '/' := by decide
  have hsla : ('/' : Char) ≠ '@' := by decide
  have hstep1at : (replaceFirstChar '@' [] name.data).count '@' =
      name.data.count '@' - (if '@' ∈ name.data then 1 else 0) := by
    by_cases hm : '@' ∈ name.data
    · rw [count_replaceFirstChar_self '@' [] hm]
      simp [hm]
    · rw [replaceFirstChar_of_not_mem [] hm]
      simp [hm]
  have hstep1sl : (replaceFirstChar '@' [] name.data).count '/' = name.data.count '/' := by
    rw [count_replaceFirstChar_other hsla [] name.data]
    by_cases hm : '@' ∈ name.data <;> simp [hm]
  constructor
  · intro hat hsl
    rw [hdata]
    constructor
    · rw [← List.count_eq_zero]
      rw [count_replaceFirstChar_other hasl ['-'] (replaceFirstChar '@' [] name.data)]
      have h2 : (['-'] : List Char).count '@' = 0 := by decide
      have h3 : (replaceFirstChar '@' [] name.data).count '@' = 0 := by
        rw [hstep1at]
        by_cases hm : '@' ∈ name.data
        · have := List.count_pos_iff.mpr hm
          simp [hm]
          omega
        · simp [hm]
          rw [List.count_eq_zero]
          exact hm
      rw [h3, h2]
      simp
    · rw [← List.count_eq_zero]
      by_cases hm : '/' ∈ replaceFirstChar '@' [] name.data
      · rw [count_replaceFirstChar_self '/' ['-'] hm]
        have h2 : (['-'] : List Char).count '/' = 0 := by decide
        rw [h2, hstep1sl]
        have := List.count_pos_iff.mpr hm
        rw [hstep1sl] at this
        omega
      · rw [replaceFirstChar_of_not_mem ['-'] hm, List.count_eq_zero]
        exact hm
  · intro h2sl
    rw [hdata, ← List.count_pos_iff]
    have hm : '/' ∈ replaceFirstChar '@' [] name.data := by
      rw [← List.count_pos_iff, hstep1sl]
      omega
    rw [count_replaceFirstChar_self '/' ['-'] hm]
    have h2 : (['-'] : List Char).count '/' = 0 := by decide
    rw [h2, hstep1sl]
    omega

/-- Witness for C9: a scoped name loses its @ and /, a doubly-slashed name
keeps a slash. -/
theorem C9_sanitize_witness :
    ('@' ∉ (safePackageName "@scope/pkg").data ∧ '/' ∉ (safePackageName "@scope/pkg").data) ∧
    '/' ∈ (safePackageName "@scope/a/b").data :=
  ⟨(C9_sanitize_first_occurrence_only "@scope/pkg").1 (by decide) (by decide),
   (C9_sanitize_first_occurrence_only "@scope/a/b").2 (by decide)⟩

end AutoChangeset
